import Mathlib

/-!
Verification of the nefele time-series library (AR / MA / ARMA / ARIMA model
estimation in Rust) against its natural-language specification.

Series are modelled as `List ℚ`: the Rust code computes over `f64`, and every
arithmetic step relevant to the claims below (sums, products, divisions) is
modelled exactly over the rationals.  A separate `Option ℚ` model (`none` =
non-finite IEEE value) is used for the one claim about NaN propagation.
External library calls that are not part of this repository (nalgebra's QR
solver, the L-BFGS optimizer, the transcendental `ln` inside the AIC/BIC
formulas) are modelled as oracle parameters; everything else is translated
from the source.
-/

/-- Sum f 0 + f 1 + ... + f (k-1), the shape of the accumulation loops
`for i in 0..k { acc += f(i) }` used throughout the source. -/
def armaSum (k : ℕ) (f : ℕ → ℚ) : ℚ := ((List.range k).map f).sum

/-- `mean` from ancilla.rs: fold-sum divided by the length. -/
def meanQ (x : List ℚ) : ℚ := x.sum / (x.length : ℚ)

/-- One backward-differencing sweep over a tail of the vector.  Mirrors the
inner loop of `diff` (ancilla.rs lines 6-11), which walks the vector from the
back so each `y[j] = y[j] - y[j-1]` reads the not-yet-updated predecessor:
`diffPass p l` differences `l` where `p` is the element just before `l`. -/
def diffPass (p : ℚ) : List ℚ → List ℚ
  | [] => []
  | a :: l => (a - p) :: diffPass a l

/-- Pass `s` of `diff` (ancilla.rs lines 6-11): positions `0..=s` are left
untouched, positions `s+1..` are backward-differenced. -/
def applyPass (s : ℕ) (y : List ℚ) : List ℚ :=
  y.take (s + 1) ++
    (match y.drop s with
      | [] => ([] : List ℚ)
      | p :: rest => diffPass p rest)

/-- The passes `s = 0, 1, ..., k-1` of `diff`, in source order. -/
def diffPasses (x : List ℚ) : ℕ → List ℚ
  | 0 => x
  | k + 1 => applyPass k (diffPasses x k)

/-- `diff` from ancilla.rs (lines 3-14): `d` staged backward-differencing
passes followed by `y.drain(0..d)`. -/
def diff (x : List ℚ) (d : ℕ) : List ℚ := (diffPasses x d).drop d

/-- Running cumulative sum starting from accumulator `acc`:
`y[i] = y[i-1] + x[i]` (ancilla.rs lines 32-35). -/
def cumsumFrom (acc : ℚ) : List ℚ → List ℚ
  | [] => []
  | a :: l => (acc + a) :: cumsumFrom (acc + a) l

/-- `cumsum` from ancilla.rs (lines 26-37), including the `len < 2` guard
that returns the one-element vector `[0.0]`. -/
def cumsum (x : List ℚ) : List ℚ :=
  if x.length < 2 then [0] else cumsumFrom 0 x

/-- `inverse_diff` from ancilla.rs (lines 16-24): prepend `d` zeros, then
apply `cumsum` `d` times. -/
def inverse_diff (x : List ℚ) (d : ℕ) : List ℚ :=
  cumsum^[d] (List.replicate d 0 ++ x)

/-- The guard-free branch of `cumsum`; used only to state lemmas. -/
def csum (l : List ℚ) : List ℚ := cumsumFrom 0 l

/-- The one-step prediction inside `residuals` (ancilla.rs lines 52-59):
`intercept + Σ_j phi[j]·x[t-j-1] + Σ_{j < min(len theta, t)} theta[j]·res[t-j-1]`,
where `res` is the residual vector built so far.  Out-of-range indices never
occur in the source loop; `getD _ 0` is the total rendering. -/
def predAt (x : List ℚ) (intercept : ℚ) (phi theta res : List ℚ) (t : ℕ) : ℚ :=
  intercept
    + armaSum phi.length (fun j => phi.getD j 0 * x.getD (t - j - 1) 0)
    + armaSum (min theta.length t) (fun j => theta.getD j 0 * res.getD (t - j - 1) 0)

/-- The `for t in phi.len()..x.len()` loop of `residuals`: each iteration
appends one residual; the loop variable `t` always equals the current length
of the residual vector. -/
def residualsLoop (x : List ℚ) (intercept : ℚ) (phi theta : List ℚ) :
    ℕ → List ℚ → List ℚ
  | 0, res => res
  | n + 1, res =>
      residualsLoop x intercept phi theta n
        (res ++ [x.getD res.length 0 - predAt x intercept phi theta res res.length])

/-- `residuals` from ancilla.rs (lines 40-64): `len(phi)` leading zeros, then
one residual `x[t] - prediction` per index `t` in `phi.len()..x.len()`. -/
def residuals (x : List ℚ) (intercept : ℚ) (phi theta : List ℚ) : List ℚ :=
  residualsLoop x intercept phi theta (x.length - phi.length)
    (List.replicate phi.length 0)

/-- The inner accumulation of `acf` (ancilla.rs lines 98-103): the lag-`t`
entry before any normalization, `Σ_{i<N-t} ((x[i]-mean)(x[i+t]-mean))/N`,
with the division by `N` inside the sum exactly as in the source. -/
def cov_at (x : List ℚ) (t : ℕ) : ℚ :=
  armaSum (x.length - t)
    (fun i => (x.getD i 0 - meanQ x) * (x.getD (i + t) 0 - meanQ x) / (x.length : ℚ))

/-- `acf` from ancilla.rs (lines 76-113).  `maxLag` is clamped to `N-1`;
in correlation mode every lag `t ≥ 1` is divided by the lag-0 entry (which
still holds the raw covariance during the loop) and the lag-0 entry is set
to `1.0` after the loop. -/
def acf (x : List ℚ) (maxLag : Option ℕ) (covariance : Bool) : List ℚ :=
  let ml := match maxLag with
    | some m => min m (x.length - 1)
    | none => x.length - 1
  (List.range (ml + 1)).map (fun t =>
    if covariance then cov_at x t
    else if t = 0 then 1 else cov_at x t / cov_at x 0)

/-- The spec's formula for the lag-`t` empirical covariance,
`(1/N)·Σ (x_i - mean)(x_{i+t} - mean)`, with the division by `N` applied to
the whole sum.  Stated from the spec's words, to be compared with `cov_at`. -/
def covSpec (x : List ℚ) (t : ℕ) : ℚ :=
  armaSum (x.length - t)
    (fun i => (x.getD i 0 - meanQ x) * (x.getD (i + t) 0 - meanQ x)) / (x.length : ℚ)

/-- `compute_variance` from arma.rs lines 232-253 (textually identical to the
ancilla.rs version used by ARIMA): errors are zero for `i < len(coeffs)`,
then `data[i] - Σ_j coeffs[j]·data[i-j-1]`; the variance is the sum of
squared errors, skipping the first `len(coeffs)` entries, divided by `n`
(the `q` in `n - q` is hardcoded to 0). -/
def compute_variance (data coeffs : List ℚ) : ℚ :=
  let errors := (List.range data.length).map (fun i =>
    if i < coeffs.length then 0
    else data.getD i 0 - armaSum coeffs.length (fun j => coeffs.getD j 0 * data.getD (i - j - 1) 0))
  ((errors.drop coeffs.length).map (fun e => e * e)).sum / (data.length : ℚ)

/-- The private `compute_variance` of ar.rs (lines 294-311): errors only for
`i ≥ len(coeffs)`, their mean is the error sum divided by `data.len()`
(not by the number of errors), and the variance is the mean squared
deviation divided by `errors.len()` (the `n` in `errors.len() - n` is
hardcoded to 0). -/
def ar_compute_variance (data coeffs : List ℚ) : ℚ :=
  let errors := (List.range' coeffs.length (data.length - coeffs.length)).map (fun i =>
    data.getD i 0 - armaSum coeffs.length (fun j => coeffs.getD j 0 * data.getD (i - j - 1) 0))
  let m := errors.sum / (data.length : ℚ)
  (errors.map (fun e => (e - m) * (e - m))).sum / (errors.length : ℚ)

/-!  A finiteness-tracking model of `f64` for the NaN-propagation claim:
`some q` is the finite double of exact value `q`, `none` is a non-finite
value (NaN or ±∞).  Finite-precision rounding is not modelled; the only
non-finite value arising below is `0.0 / 0.0`, which IEEE-754 defines as
NaN, and any operation on a NaN yields NaN again. -/

def fpAdd : Option ℚ → Option ℚ → Option ℚ
  | some a, some b => some (a + b)
  | _, _ => none

def fpSub : Option ℚ → Option ℚ → Option ℚ
  | some a, some b => some (a - b)
  | _, _ => none

def fpMul : Option ℚ → Option ℚ → Option ℚ
  | some a, some b => some (a * b)
  | _, _ => none

def fpDiv : Option ℚ → Option ℚ → Option ℚ
  | some a, some b => if b = 0 then none else some (a / b)
  | _, _ => none

/-- `for i in 0..k { acc += f(i) }` over the `f64` model, starting at `0.0`. -/
def fpSum (k : ℕ) (f : ℕ → Option ℚ) : Option ℚ :=
  ((List.range k).map f).foldl fpAdd (some 0)

/-- `acf` from ancilla.rs again, computed in the finiteness-tracking `f64`
model (the input series itself is finite).  Same structure as `acf`. -/
def acfFP (x : List ℚ) (maxLag : Option ℕ) (covariance : Bool) : List (Option ℚ) :=
  let ml := match maxLag with
    | some m => min m (x.length - 1)
    | none => x.length - 1
  let n : Option ℚ := some (x.length : ℚ)
  let meanx := fpDiv ((x.map some).foldl fpAdd (some 0)) n
  let covAt := fun t => fpSum (x.length - t) (fun i =>
    fpDiv (fpMul (fpSub (some (x.getD i 0)) meanx) (fpSub (some (x.getD (i + t) 0)) meanx)) n)
  (List.range (ml + 1)).map (fun t =>
    if covariance then covAt t
    else if t = 0 then some 1 else fpDiv (covAt t) (covAt 0))

/-!  Order selection.  The Rust searches record a criterion value per
candidate, then take `iter().enumerate().min_by(|(_,a),(_,b)|
a.partial_cmp(b).unwrap_or(Equal))`.  `Iterator::min_by` returns the first
of several equally-minimal elements; `minByIdxAux` renders exactly that
semantics (the candidate from the rest of the list wins only when strictly
smaller).  The `partial_cmp ... unwrap_or(Equal)` comparator is total on the
exact rationals modelled here. -/

def minByIdxAux (i : ℕ) : List ℚ → Option (ℕ × ℚ)
  | [] => none
  | a :: l =>
      match minByIdxAux (i + 1) l with
      | none => some (i, a)
      | some (j, b) => if b < a then some (j, b) else some (i, a)

/-- Index of the minimum as computed by the Rust enumerate/min_by chain. -/
def minByIdx (l : List ℚ) : Option ℕ := (minByIdxAux 0 l).map (·.1)

/-- Spec-side independent linear scan: returns `(relative index, element)`
of the first element attaining the minimum of `f`. -/
def lsaP (f : ℕ → ℚ) : List ℕ → Option (ℕ × ℕ)
  | [] => none
  | k :: ks =>
      match lsaP f ks with
      | none => some (0, k)
      | some (j, m) => if f m < f k then some (j + 1, m) else some (0, k)

/-- Spec-side arg-min: the first order in the list minimizing `f`
(ties broken by the earliest order, i.e. the lowest order tried first). -/
def linearScanArgmin (f : ℕ → ℚ) (orders : List ℕ) : Option ℕ :=
  (lsaP f orders).map (·.2)

/-!  AR model (ar.rs).  The nalgebra QR solve, the Cholesky solve, the Burg
recursion's float arithmetic and the L-BFGS optimizer are external to the
estimation-control claims below; each estimator's coefficient output is an
oracle field of `ARenv`.  The Yule-Walker oracle additionally receives the
current `phi`, because the source keeps the old `phi` when the QR solve
fails (`if let Some(solution) = rho.qr().solve(&r) { self.phi = ... }`). -/

inductive ARMethod
  | OLS
  | YWALKER
  | BURG
  | CSS

inductive ARCriterion
  | AIC
  | BIC

structure ARState where
  phi : List ℚ
  sigma_squared : ℚ
  aic : ℚ
  bic : ℚ

structure ARenv where
  ols : List ℚ → ℕ → List ℚ
  yw : List ℚ → ℕ → List ℚ → List ℚ
  burg : List ℚ → ℕ → List ℚ
  css : List ℚ → ℕ → List ℚ
  aicF : ℕ → ℚ → ℕ → ℚ
  bicF : ℕ → ℚ → ℕ → ℚ

/-- The body of `fit_yule_walker` after the linear system is built
(ar.rs lines 157-159): on `Some(solution)` the coefficients are the
solution reversed; on `None` the update is skipped and `phi` keeps its
previous value. -/
def fit_yule_walker_phi (oldPhi : List ℚ) (solveResult : Option (List ℚ)) : List ℚ :=
  match solveResult with
  | none => oldPhi
  | some sol => sol.reverse

/-- Entry `(i, j)` of the `rho` matrix built by `fit_yule_walker`
(ar.rs lines 137-145): `Σ_{k<n-order} data[k+i]·data[k+j] / (n-order)`. -/
def ywRho (data : List ℚ) (order i j : ℕ) : ℚ :=
  armaSum (data.length - order) (fun k => data.getD (k + i) 0 * data.getD (k + j) 0)
    / ((data.length - order : ℕ) : ℚ)

/-- Entry `i` of the right-hand side `r` of `fit_yule_walker`
(ar.rs lines 147-155). -/
def ywR (data : List ℚ) (order i : ℕ) : ℚ :=
  armaSum (data.length - order) (fun k => data.getD (k + i) 0 * data.getD (k + order) 0)
    / ((data.length - order : ℕ) : ℚ)

/-- `AutoRegressive::fit` (ar.rs lines 83-94): dispatch on the method to set
`phi`, then recompute `sigma_squared`, `aic` and `bic` from the data and the
(possibly new) coefficients. -/
def fitAR (env : ARenv) (st : ARState) (data : List ℚ) (order : ℕ)
    (method : ARMethod) : ARState :=
  let phi := match method with
    | .OLS => env.ols data order
    | .YWALKER => env.yw data order st.phi
    | .BURG => env.burg data order
    | .CSS => env.css data order
  let sg := ar_compute_variance data phi
  { phi := phi, sigma_squared := sg,
    aic := env.aicF data.length sg order, bic := env.bicF data.length sg order }

/-- The recording loop shared by `autofit_aic`/`autofit_bic` (ar.rs lines
258-262 and 276-280): fit each order with Yule-Walker and push the selected
criterion field. -/
def ar_fit_seq (env : ARenv) (data : List ℚ) (st : ARState) (orders : List ℕ)
    (crit : ARState → ℚ) : ARState × List ℚ :=
  orders.foldl
    (fun acc k =>
      let st' := fitAR env acc.1 data k .YWALKER
      (st', acc.2 ++ [crit st']))
    (st, [])

/-- The order chosen by `autofit_bic` (ar.rs lines 282-287):
`min_by` index plus one, `unwrap_or(0)`. -/
def ar_bic_selected (env : ARenv) (st : ARState) (data : List ℚ) (maxOrder : ℕ) : ℕ :=
  ((minByIdx (ar_fit_seq env data st (List.range' 1 maxOrder) (·.bic)).2).map (· + 1)).getD 0

/-- `AutoRegressive::autofit_bic` (ar.rs lines 275-290). -/
def ar_autofit_bic (env : ARenv) (st : ARState) (data : List ℚ) (maxOrder : ℕ) : ARState :=
  fitAR env (ar_fit_seq env data st (List.range' 1 maxOrder) (·.bic)).1 data
    (ar_bic_selected env st data maxOrder) .YWALKER

/-- The order chosen by `autofit_aic` (ar.rs lines 264-269). -/
def ar_aic_selected (env : ARenv) (st : ARState) (data : List ℚ) (maxOrder : ℕ) : ℕ :=
  ((minByIdx (ar_fit_seq env data st (List.range' 1 maxOrder) (·.aic)).2).map (· + 1)).getD 0

/-- `AutoRegressive::autofit_aic` (ar.rs lines 257-273). -/
def ar_autofit_aic (env : ARenv) (st : ARState) (data : List ℚ) (maxOrder : ℕ) : ARState :=
  fitAR env (ar_fit_seq env data st (List.range' 1 maxOrder) (·.aic)).1 data
    (ar_aic_selected env st data maxOrder) .YWALKER

/-- `AutoRegressive::autofit` (ar.rs lines 96-101). -/
def ar_autofit (env : ARenv) (st : ARState) (data : List ℚ) (maxOrder : ℕ) :
    ARCriterion → ARState
  | .AIC => ar_autofit_aic env st data maxOrder
  | .BIC => ar_autofit_bic env st data maxOrder

/-- The per-order BIC that an independent scan recomputes: the `bic` field
`fit` would produce at that order (the Yule-Walker oracle applied to an
irrelevant previous `phi`, here `[]`). -/
def bicOfOrder (env : ARenv) (data : List ℚ) (k : ℕ) : ℚ :=
  env.bicF data.length (ar_compute_variance data (env.yw data k [])) k

/-!  ARMA model (arma.rs).  `fit_hannan_rissanen` and `fit_ml` are empty
stubs in the source, so those methods leave the coefficients unchanged;
CSS is the L-BFGS oracle. -/

inductive ARMAMethod
  | HRISSANEN
  | CSS
  | ML

structure ARMAState where
  phi : List ℚ
  theta : List ℚ
  sigma_squared : ℚ
  aic : ℚ
  bic : ℚ

structure ARMAenv where
  cssFit : List ℚ → ℕ → ℕ → List ℚ × List ℚ
  aicF : ℕ → ℚ → ℕ → ℚ
  bicF : ℕ → ℚ → ℕ → ℚ

/-- `ARMA::fit` (arma.rs lines 88-98). -/
def arma_fit (env : ARMAenv) (st : ARMAState) (data : List ℚ) (p q : ℕ)
    (method : ARMAMethod) : ARMAState :=
  let pr := match method with
    | .HRISSANEN => (st.phi, st.theta)
    | .CSS => env.cssFit data p q
    | .ML => (st.phi, st.theta)
  let sg := compute_variance data pr.1
  { phi := pr.1, theta := pr.2, sigma_squared := sg,
    aic := env.aicF data.length sg (p + q), bic := env.bicF data.length sg (p + q) }

/-- The row-major candidate grid of `autofit_aic` (arma.rs lines 180-187):
`ar_order` outer from 0 to `max_ar_order`, `ma_order` inner from 0 to
`max_ma_order`. -/
def arma_grid (maxar maxma : ℕ) : List (ℕ × ℕ) :=
  (List.range (maxar + 1)).flatMap (fun p => (List.range (maxma + 1)).map (fun q => (p, q)))

/-- The grid-recording loop of `ARMA::autofit_aic`. -/
def arma_fit_seq (env : ARMAenv) (data : List ℚ) (st : ARMAState)
    (pairs : List (ℕ × ℕ)) (crit : ARMAState → ℚ) : ARMAState × List ℚ :=
  pairs.foldl
    (fun acc pq =>
      let st' := arma_fit env acc.1 data pq.1 pq.2 .CSS
      (st', acc.2 ++ [crit st']))
    (st, [])

/-- The decode of the flat minimizing index in `ARMA::autofit_aic`
(arma.rs lines 189-199): `ar_order = min_order / max_ar_order` (the
`as f64 ... floor as usize` is integer division on these non-negative
values) and `ma_order = min_order.rem_euclid(max_ma_order)`. -/
def arma_selected_pair (aics : List ℚ) (maxar maxma : ℕ) : ℕ × ℕ :=
  let minIdx := (minByIdx aics).getD 0
  (minIdx / maxar, minIdx % maxma)

/-- `ARMA::autofit_aic` (arma.rs lines 178-205). -/
def arma_autofit_aic (env : ARMAenv) (st : ARMAState) (data : List ℚ)
    (maxar maxma : ℕ) : ARMAState :=
  let r := arma_fit_seq env data st (arma_grid maxar maxma) (·.aic)
  let pq := arma_selected_pair r.2 maxar maxma
  arma_fit env r.1 data pq.1 pq.2 .CSS

/-!  ARIMA model (arima.rs).  Same oracle treatment of the CSS optimizer;
`fit_ml` is an empty stub in the source. -/

inductive ARIMAMethod
  | CSS
  | ML

inductive ARIMACriterion
  | AIC
  | BIC

structure ARIMAState where
  phi : List ℚ
  diffOrder : ℕ
  theta : List ℚ
  sigma_squared : ℚ
  aic : ℚ
  bic : ℚ

structure ARIMAenv where
  cssFit : List ℚ → ℕ → ℕ → List ℚ × List ℚ
  aicF : ℕ → ℚ → ℕ → ℚ
  bicF : ℕ → ℚ → ℕ → ℚ

/-- `ARIMA::fit` (arima.rs lines 95-117): with `d > 0` the estimators run on
the differenced series and `self.diff` is set to `d`; with `d = 0` they run
on the data as given and `self.diff` is left alone.  `ARIMAMethod::ML`
dispatches to the empty `fit_ml` stub, leaving the coefficients unchanged. -/
def arima_fit (env : ARIMAenv) (st : ARIMAState) (data : List ℚ)
    (p d q : ℕ) (method : ARIMAMethod) : ARIMAState :=
  if 0 < d then
    let dd := diff data d
    let pr := match method with
      | .CSS => env.cssFit dd p q
      | .ML => (st.phi, st.theta)
    let sg := compute_variance dd pr.1
    { phi := pr.1, diffOrder := d, theta := pr.2, sigma_squared := sg,
      aic := env.aicF data.length sg (p + q), bic := env.bicF data.length sg (p + q) }
  else
    let pr := match method with
      | .CSS => env.cssFit data p q
      | .ML => (st.phi, st.theta)
    let sg := compute_variance data pr.1
    { phi := pr.1, diffOrder := st.diffOrder, theta := pr.2, sigma_squared := sg,
      aic := env.aicF data.length sg (p + q), bic := env.bicF data.length sg (p + q) }

/-- The row-major candidate grid of `ARIMA::autofit_aic` (arima.rs lines
201-208). -/
def arima_grid (maxar maxma : ℕ) : List (ℕ × ℕ) :=
  (List.range (maxar + 1)).flatMap (fun p => (List.range (maxma + 1)).map (fun q => (p, q)))

/-- The grid-recording loop of `ARIMA::autofit_aic`: every candidate is
fitted with `Self::fit(self, data, ar_order, 0, ma_order, CSS)` — the
original series and differencing order 0. -/
def arima_fit_seq (env : ARIMAenv) (data : List ℚ) (st : ARIMAState)
    (pairs : List (ℕ × ℕ)) (crit : ARIMAState → ℚ) : ARIMAState × List ℚ :=
  pairs.foldl
    (fun acc pq =>
      let st' := arima_fit env acc.1 data pq.1 0 pq.2 .CSS
      (st', acc.2 ++ [crit st']))
    (st, [])

/-- `ARIMA::autofit_aic` (arima.rs lines 198-221): record the grid, decode
the minimizing index with `/(max_ma_order+1)` and `%(max_ma_order+1)`, and
re-fit at the decoded pair, again with differencing order 0. -/
def arima_autofit_aic (env : ARIMAenv) (st : ARIMAState) (data : List ℚ)
    (maxar maxma : ℕ) : ARIMAState :=
  let r := arima_fit_seq env data st (arima_grid maxar maxma) (·.aic)
  let minIdx := (minByIdx r.2).getD 0
  arima_fit env r.1 data (minIdx / (maxma + 1)) 0 (minIdx % (maxma + 1)) .CSS

/-- `ARIMA::autofit_bic` (arima.rs lines 223-244): for each `ar_order` the
inner loop fits the row with differencing order 0 and records `bic`, and the
end of each outer iteration re-fits at the hardcoded `(1, 0, 1)` (the
selection code is commented out in the source). -/
def arima_autofit_bic (env : ARIMAenv) (st : ARIMAState) (data : List ℚ)
    (maxar maxma : ℕ) : ARIMAState :=
  ((List.range' 1 maxar).foldl
    (fun (acc : ARIMAState × List ℚ) p =>
      let inner := (List.range' 1 maxma).foldl
        (fun (a : ARIMAState × List ℚ) q =>
          let st' := arima_fit env a.1 data p 0 q .CSS
          (st', a.2 ++ [st'.bic])) acc
      (arima_fit env inner.1 data 1 0 1 .CSS, inner.2))
    (st, [])).1

/-- `ARIMA::autofit` (arima.rs lines 120-127): computes `diff(data, d)` into
a local that is never used, then dispatches on the criterion passing the
original `data`. -/
def arima_autofit (env : ARIMAenv) (st : ARIMAState) (data : List ℚ)
    (d maxar maxma : ℕ) (criterion : ARIMACriterion) : ARIMAState :=
  let _dd := diff data d
  match criterion with
  | .AIC => arima_autofit_aic env st data maxar maxma
  | .BIC => arima_autofit_bic env st data maxar maxma

/-!  Concrete instantiations used by the closed theorems below. -/

/-- An ARMA environment whose CSS oracle returns coefficient vectors of the
requested lengths and whose criterion oracles depend only on the parameter
count `k = p + q`, giving the candidate grid of `autofit_aic` over
`max_ar_order = max_ma_order = 1` the AIC values `[1, 0, 0, 1]`. -/
def c1Env : ARMAenv :=
  { cssFit := fun _ p q => (List.replicate p 1, List.replicate q 1),
    aicF := fun _ _ k => if k = 1 then 0 else 1,
    bicF := fun _ _ k => if k = 1 then 0 else 1 }

/-- The state `ARMA::new()` produces (arma.rs lines 29-33). -/
def c1St : ARMAState :=
  { phi := [0], theta := [0], sigma_squared := 0, aic := 0, bic := 0 }

def c1Data : List ℚ := [1, 2, 4, 8]

/-- An AR environment: the Yule-Walker oracle ignores the previous `phi`
(the QR solve always succeeds) and returns a vector of the requested
length; criteria only depend on the order. -/
def wEnv : ARenv :=
  { ols := fun _ k => List.replicate k 0,
    yw := fun _ k _ => List.replicate k 1,
    burg := fun _ k => List.replicate k 0,
    css := fun _ k => List.replicate k 0,
    aicF := fun _ _ k => (k : ℚ),
    bicF := fun _ _ k => (k : ℚ) }

/-- `wEnv` with a different OLS oracle (the estimators `autofit` never
calls). -/
def wEnv2 : ARenv :=
  { wEnv with ols := fun _ k => List.replicate k 5 }

/-- The state `AutoRegressive::new()` produces (ar.rs lines 32-39). -/
def wSt : ARState := { phi := [0], sigma_squared := 0, aic := 0, bic := 0 }

def wData : List ℚ := [1, 2, 4, 8]

/-- An AR environment whose Yule-Walker oracle renders a failing QR solve:
it runs the source's `if let Some(...)` update with `None`, keeping the old
coefficients. -/
def c6Env : ARenv :=
  { ols := fun _ k => List.replicate k 0,
    yw := fun _ _ old => fit_yule_walker_phi old none,
    burg := fun _ k => List.replicate k 0,
    css := fun _ k => List.replicate k 0,
    aicF := fun _ _ _ => 0,
    bicF := fun _ _ _ => 0 }

/-- An ARIMA environment with length-respecting CSS oracle and order-only
criteria, for the closed instantiation of the `autofit` claims. -/
def c9Env : ARIMAenv :=
  { cssFit := fun _ p q => (List.replicate p 1, List.replicate q 1),
    aicF := fun _ _ k => (k : ℚ),
    bicF := fun _ _ k => (k : ℚ) }

/-- The state `ARIMA::new()` produces (arima.rs lines 31-33). -/
def c9St : ARIMAState :=
  { phi := [0], diffOrder := 0, theta := [0], sigma_squared := 0, aic := 0, bic := 0 }

/-!  Lemmas for the differencing round trip (claim C3). -/

theorem length_cumsumFrom : ∀ (l : List ℚ) (a : ℚ), (cumsumFrom a l).length = l.length
  | [], _ => rfl
  | b :: l, a => by simp [cumsumFrom, length_cumsumFrom l]

theorem diffPass_cumsumFrom : ∀ (l : List ℚ) (p : ℚ), diffPass p (cumsumFrom p l) = l
  | [], _ => rfl
  | a :: l, p => by
      simp [cumsumFrom, diffPass, diffPass_cumsumFrom l (p + a), add_sub_cancel_left]

theorem length_diffPass : ∀ (l : List ℚ) (p : ℚ), (diffPass p l).length = l.length
  | [], _ => rfl
  | a :: l, p => by simp [diffPass, length_diffPass l]

theorem length_csum (l : List ℚ) : (csum l).length = l.length :=
  length_cumsumFrom l 0

theorem length_csum_iter : ∀ (d : ℕ) (l : List ℚ), (csum^[d] l).length = l.length
  | 0, _ => rfl
  | d + 1, l => by
      rw [Function.iterate_succ_apply, length_csum_iter d, length_csum]

theorem cumsum_eq_csum (l : List ℚ) (h : 2 ≤ l.length) : cumsum l = csum l := by
  rw [cumsum, if_neg (by omega), csum]

theorem csum_replicate_zero : ∀ (k : ℕ) (l : List ℚ),
    csum (List.replicate k 0 ++ l) = List.replicate k 0 ++ csum l
  | 0, _ => rfl
  | k + 1, l => by
      have ih := csum_replicate_zero k l
      simp only [List.replicate_succ, List.cons_append, csum, cumsumFrom, add_zero] at *
      simp [ih]

theorem drop_cumsumFrom : ∀ (k : ℕ) (w : List ℚ) (a : ℚ),
    (cumsumFrom a w).drop k = cumsumFrom (a + (w.take k).sum) (w.drop k)
  | 0, w, a => by simp
  | k + 1, [], a => by simp [cumsumFrom]
  | k + 1, b :: w, a => by
      simp only [cumsumFrom, List.drop_succ_cons, List.take_succ_cons, List.sum_cons]
      rw [drop_cumsumFrom k w (a + b), add_assoc]

theorem length_applyPass (s : ℕ) (y : List ℚ) : (applyPass s y).length = y.length := by
  unfold applyPass
  cases hds : y.drop s with
  | nil =>
      have hlen : y.length ≤ s := by
        have := congrArg List.length hds
        simp [List.length_drop] at this
        omega
      simp [List.length_take]
      omega
  | cons p rest =>
      have hlen : y.length - s = rest.length + 1 := by
        have := congrArg List.length hds
        simpa [List.length_drop] using this
      simp [List.length_take, length_diffPass]
      omega

theorem length_diffPasses : ∀ (k : ℕ) (x : List ℚ), (diffPasses x k).length = x.length
  | 0, _ => rfl
  | k + 1, x => by
      simp only [diffPasses, length_applyPass, length_diffPasses k]

theorem inverse_diff_shifted : ∀ (d : ℕ) (x : List ℚ) (j : ℕ), 1 ≤ x.length →
    cumsum^[d] (List.replicate (d + j) 0 ++ x) = List.replicate (d + j) 0 ++ csum^[d] x
  | 0, x, j, _ => by simp
  | d + 1, x, j, h => by
      rw [Function.iterate_succ_apply]
      have hguard : 2 ≤ (List.replicate (d + 1 + j) (0:ℚ) ++ x).length := by
        simp [List.length_append]
        omega
      rw [cumsum_eq_csum _ hguard, csum_replicate_zero]
      have hx : 1 ≤ (csum x).length := by rw [length_csum]; exact h
      have ih := inverse_diff_shifted d (csum x) (j + 1) hx
      rw [show d + 1 + j = d + (j + 1) by omega, ih, ← Function.iterate_succ_apply]

theorem diffPasses_csum_iter (x : List ℚ) (d : ℕ) :
    ∀ k, k ≤ d → (diffPasses (csum^[d] x) k).drop k = (csum^[d - k] x).drop k := by
  intro k
  induction k with
  | zero => simp [diffPasses]
  | succ k ih =>
      intro hk
      have hIH := ih (by omega)
      have hw : csum^[d - k] x = csum (csum^[d - (k + 1)] x) := by
        rw [show d - k = (d - (k+1)) + 1 by omega, Function.iterate_succ_apply']
      set w := csum^[d - (k + 1)] x with hwdef
      set y := diffPasses (csum^[d] x) k with hydef
      have hylen : y.length = x.length := by
        rw [hydef, length_diffPasses, length_csum_iter]
      have hwlen : w.length = x.length := by rw [hwdef, length_csum_iter]
      have hdropk : y.drop k = cumsumFrom (0 + (w.take k).sum) (w.drop k) := by
        rw [hIH, hw]
        exact drop_cumsumFrom k w 0
      have hdrop1 : (w.drop k).drop 1 = w.drop (k + 1) := by
        rw [List.drop_drop, Nat.add_comm]
      show (applyPass k y).drop (k + 1) = w.drop (k + 1)
      unfold applyPass
      cases hcase : w.drop k with
      | nil =>
          have hwk : w.length ≤ k := by
            have := congrArg List.length hcase
            simp [List.length_drop] at this
            omega
          have h2 : w.drop (k + 1) = ([] : List ℚ) :=
            List.drop_eq_nil_of_le (by omega)
          rw [hdropk, hcase, h2]
          simp only [cumsumFrom, List.append_nil]
          refine List.drop_eq_nil_of_le ?_
          simp [List.length_take]
      | cons wk restw =>
          have hklt : k < w.length := by
            by_contra hc
            rw [List.drop_eq_nil_of_le (by omega)] at hcase
            exact List.noConfusion hcase
          have hdl : w.drop (k + 1) = restw := by
            rw [← hdrop1, hcase, List.drop_one, List.tail_cons]
          rw [hdropk, hcase]
          simp only [cumsumFrom]
          rw [diffPass_cumsumFrom]
          have htl : (y.take (k + 1)).length = k + 1 := by
            rw [List.length_take]
            omega
          have hfin := List.drop_left (y.take (k + 1)) restw
          rw [htl] at hfin
          rw [hdl]
          exact hfin

/-- C3.  For every series `x` (nonempty, with `d ≤ len x` so every source
operation is defined), `inverse_diff` prepends `d` zeros and applies
cumulative summation `d` times, `diff` shrinks its input by exactly `d`
elements, and differencing the suffix `inverse_diff(x, d)[d:]` `d` times
recovers `x` exactly (hence within any floating tolerance), modulo the `d`
leading values lost to differencing. -/
theorem diff_inverse_diff_roundtrip (x : List ℚ) (d : ℕ)
    (h : 1 ≤ x.length) (_hd : d ≤ x.length) :
    inverse_diff x d = cumsum^[d] (List.replicate d 0 ++ x) ∧
    (diff x d).length = x.length - d ∧
    diff ((inverse_diff x d).drop d) d = x.drop d := by
  refine ⟨rfl, ?_, ?_⟩
  · simp [diff, List.length_drop, length_diffPasses]
  · have h1 : inverse_diff x d = List.replicate d 0 ++ csum^[d] x := by
      have := inverse_diff_shifted d x 0 h
      simpa [inverse_diff] using this
    have h2 : (List.replicate d (0:ℚ) ++ csum^[d] x).drop d = csum^[d] x := by
      have hl := List.drop_left (List.replicate d (0:ℚ)) (csum^[d] x)
      rwa [List.length_replicate] at hl
    rw [h1, h2]
    have h3 := diffPasses_csum_iter x d d le_rfl
    simpa [diff, Nat.sub_self] using h3

/-- Witness for C3 at `x = [1, 2, 3]`, `d = 2`. -/
theorem diff_inverse_diff_roundtrip_witness :
    (1 ≤ List.length [(1:ℚ), 2, 3] ∧ 2 ≤ List.length [(1:ℚ), 2, 3]) ∧
    diff ((inverse_diff [(1:ℚ), 2, 3] 2).drop 2) 2 = List.drop 2 [(1:ℚ), 2, 3] :=
  ⟨⟨by decide, by decide⟩,
    (diff_inverse_diff_roundtrip [(1:ℚ), 2, 3] 2 (by decide) (by decide)).2.2⟩

/-!  Lemmas for the residual recursion (claim C7). -/

theorem length_residualsLoop (x : List ℚ) (c : ℚ) (phi theta : List ℚ) :
    ∀ (n : ℕ) (res : List ℚ),
      (residualsLoop x c phi theta n res).length = res.length + n
  | 0, res => rfl
  | n + 1, res => by
      rw [residualsLoop, length_residualsLoop x c phi theta n]
      simp
      omega

theorem residualsLoop_stable (x : List ℚ) (c : ℚ) (phi theta : List ℚ) :
    ∀ (n : ℕ) (res : List ℚ) (i : ℕ), i < res.length →
      (residualsLoop x c phi theta n res).getD i 0 = res.getD i 0
  | 0, _, _, _ => rfl
  | n + 1, res, i, hi => by
      rw [residualsLoop,
        residualsLoop_stable x c phi theta n _ i (by simp; omega)]
      rw [List.getD_append _ _ _ _ hi]

theorem armaSum_congr (k : ℕ) (f g : ℕ → ℚ) (h : ∀ j, j < k → f j = g j) :
    armaSum k f = armaSum k g := by
  unfold armaSum
  congr 1
  refine List.map_congr_left ?_
  intro j hj
  exact h j (List.mem_range.mp hj)

theorem predAt_congr (x : List ℚ) (c : ℚ) (phi theta r s : List ℚ) (t : ℕ)
    (h : ∀ i, i < t → r.getD i 0 = s.getD i 0) :
    predAt x c phi theta r t = predAt x c phi theta s t := by
  unfold predAt
  congr 1
  refine armaSum_congr _ _ _ ?_
  intro j hj
  rw [h (t - j - 1) (by omega)]

theorem residualsLoop_spec (x : List ℚ) (c : ℚ) (phi theta : List ℚ) :
    ∀ (n : ℕ) (res : List ℚ), phi.length ≤ res.length →
      (∀ t, phi.length ≤ t → t < res.length →
        res.getD t 0 = x.getD t 0 - predAt x c phi theta res t) →
      ∀ t, phi.length ≤ t → t < res.length + n →
        (residualsLoop x c phi theta n res).getD t 0 =
          x.getD t 0 - predAt x c phi theta (residualsLoop x c phi theta n res) t := by
  intro n
  induction n with
  | zero =>
      intro res _ hgood t ht htl
      simp only [residualsLoop]
      exact hgood t ht (by omega)
  | succ n ih =>
      intro res hlen hgood t ht htl
      rw [residualsLoop]
      set v := x.getD res.length 0 - predAt x c phi theta res res.length with hv
      refine ih (res ++ [v]) (by simp; omega) ?_ t ht (by simp; omega)
      intro u hu hul
      simp only [List.length_append, List.length_singleton] at hul
      rcases Nat.lt_or_ge u res.length with hcase | hcase
      · rw [List.getD_append _ _ _ _ hcase]
        rw [hgood u hu hcase]
        congr 1
        refine predAt_congr x c phi theta res (res ++ [v]) u ?_
        intro i hi
        rw [List.getD_append _ _ _ _ (by omega)]
      · have hu2 : u = res.length := by omega
        subst hu2
        have hself : (res ++ [v]).getD res.length 0 = v := by
          rw [List.getD_append_right _ _ _ _ (le_refl _)]
          simp
        rw [hself, hv]
        congr 1
        refine predAt_congr x c phi theta res (res ++ [v]) res.length ?_
        intro i hi
        rw [List.getD_append _ _ _ _ (by omega)]

/-- C7.  `residuals(x, intercept, phi, theta)` has the length of `x`, its
first `len(phi)` entries are zero, and every later entry at index `t` is
`x[t]` minus the prediction `intercept + Σ_j phi[j]·x[t-j-1] +
Σ_j theta[j]·res[t-j-1]`, the MA sum truncated to `min(len(theta), t)`
previously computed residuals. -/
theorem residuals_correct (x phi theta : List ℚ) (c : ℚ)
    (h : phi.length ≤ x.length) :
    (residuals x c phi theta).length = x.length ∧
    (∀ i, i < phi.length → (residuals x c phi theta).getD i 0 = 0) ∧
    (∀ t, phi.length ≤ t → t < x.length →
      (residuals x c phi theta).getD t 0 =
        x.getD t 0 - (c
          + armaSum phi.length (fun j => phi.getD j 0 * x.getD (t - j - 1) 0)
          + armaSum (min theta.length t)
              (fun j => theta.getD j 0 * (residuals x c phi theta).getD (t - j - 1) 0))) := by
  refine ⟨?_, ?_, ?_⟩
  · rw [residuals, length_residualsLoop]
    simp
    omega
  · intro i hi
    rw [residuals, residualsLoop_stable x c phi theta _ _ i (by simp [hi])]
    rcases Nat.lt_or_ge i phi.length with hlt | hge
    · rw [List.getD_eq_getElem _ _ (by simpa using hlt)]
      simp
    · rw [List.getD_eq_default]
      simp [hge]
  · intro t ht htl
    have := residualsLoop_spec x c phi theta (x.length - phi.length)
      (List.replicate phi.length 0) (by simp)
      (by intro u hu hul; simp at hul; omega)
      t ht (by simp; omega)
    rw [residuals]
    rw [this]
    rfl

/-- Witness for C7 at `x = [1, 2, 3, 4]`, `intercept = 0`, `phi = [2]`,
`theta = [3]`. -/
theorem residuals_correct_witness :
    List.length [(2:ℚ)] ≤ List.length [(1:ℚ), 2, 3, 4] ∧
    (residuals [(1:ℚ), 2, 3, 4] 0 [2] [3]).length = List.length [(1:ℚ), 2, 3, 4] :=
  ⟨by decide, (residuals_correct [(1:ℚ), 2, 3, 4] [2] [3] 0 (by decide)).1⟩

/-!  Lemmas for the autocorrelation function (claim C8). -/

theorem armaSum_div (k : ℕ) (f : ℕ → ℚ) (c : ℚ) :
    armaSum k (fun i => f i / c) = armaSum k f / c := by
  induction k with
  | zero => simp [armaSum]
  | succ k ih =>
      simp only [armaSum, List.range_succ, List.map_append, List.sum_append,
        List.map_cons, List.map_nil, List.sum_cons, List.sum_nil, add_zero] at *
      rw [ih, div_add_div_same]

theorem cov_at_eq_covSpec (x : List ℚ) (t : ℕ) : cov_at x t = covSpec x t := by
  unfold cov_at covSpec
  exact armaSum_div _ _ _

theorem getD_map_range {α : Type} [Inhabited α] (n : ℕ) (g : ℕ → α) (t : ℕ)
    (h : t < n) (d : α) : (((List.range n).map g).getD t d) = g t := by
  rw [List.getD_eq_getElem _ _ (by simpa using h)]
  simp

/-- C8.  In correlation mode, `acf` clamps `max_lag` to `N-1` (output length
`min(max_lag, N-1) + 1`), returns exactly `1` at index 0, and at every index
`1 ≤ t ≤ min(max_lag, N-1)` returns the lag-`t` empirical covariance
`(1/N)·Σ (x_i - mean)(x_{i+t} - mean)` divided by the lag-0 covariance. -/
theorem acf_correlation_spec (x : List ℚ) (L : ℕ) (_h : 1 ≤ x.length) :
    (acf x (some L) false).length = min L (x.length - 1) + 1 ∧
    (acf x (some L) false).getD 0 0 = 1 ∧
    (∀ t, 1 ≤ t → t ≤ min L (x.length - 1) →
      (acf x (some L) false).getD t 0 = covSpec x t / covSpec x 0) := by
  refine ⟨?_, ?_, ?_⟩
  · simp [acf]
  · rw [acf]
    rw [getD_map_range _ _ _ (by omega)]
    simp
  · intro t ht htl
    rw [acf]
    rw [getD_map_range _ _ _ (by omega)]
    simp only [if_neg (by omega : ¬ t = 0), Bool.false_eq_true, if_false]
    rw [cov_at_eq_covSpec, cov_at_eq_covSpec]

/-- Witness for C8 at `x = [1, 2, 4]`, `max_lag = 2`. -/
theorem acf_correlation_spec_witness :
    1 ≤ List.length [(1:ℚ), 2, 4] ∧
    (acf [(1:ℚ), 2, 4] (some 2) false).getD 0 0 = 1 :=
  ⟨by decide, (acf_correlation_spec [(1:ℚ), 2, 4] 2 (by decide)).2.1⟩

/-- C4.  On the constant series `[5, 5, 5]` the lag-0 covariance is exactly
zero, so the lag-1 correlation is the division `0.0 / 0.0`, which IEEE-754
defines as NaN; `acf` returns that value to the caller (the output below is
`[1.0, NaN]` in the finiteness-tracking `f64` model, `none` marking the
non-finite entry).  The claim's required behavior — report zero or a defined
error instead — does not hold: `acf` has no error channel and does not
special-case the zero variance. -/
theorem acf_constant_series_nan :
    acfFP [5, 5, 5] (some 1) false = [some 1, none] ∧
    (acfFP [5, 5, 5] (some 1) false).getD 1 (some 0) = none := by
  constructor
  · norm_num [acfFP, fpSum, fpAdd, fpSub, fpMul, fpDiv, List.range_succ]
  · norm_num [acfFP, fpSum, fpAdd, fpSub, fpMul, fpDiv, List.range_succ]

/-- C5.  The Yule-Walker estimator's final update (ar.rs lines 157-159):
when the QR solve returns no solution, the coefficient update is silently
skipped and `phi` holds exactly the value it had before the call; on
success `phi` becomes the reversed solution vector. -/
theorem yule_walker_solve_failure_keeps_phi :
    ∀ (oldPhi : List ℚ), fit_yule_walker_phi oldPhi none = oldPhi ∧
      ∀ (sol : List ℚ), fit_yule_walker_phi oldPhi (some sol) = sol.reverse :=
  fun _ => ⟨rfl, fun _ => rfl⟩

/-- C6.  After `AutoRegressive::new()` (so `phi = [0.0]`, length 1), fitting
`data = [0, 0, 0, 0]` at order 2 with Yule-Walker builds an identically zero
2×2 system; the QR solve of a singular matrix returns `None`, the update is
skipped with no error, and the model is left with `len(phi) = 1 ≠ 2`: a fit
that raised no failure does not satisfy `len(phi) == ar_order`, refuting the
claimed invariant on this code path. -/
theorem fit_len_invariant_violated :
    (ywRho [0, 0, 0, 0] 2 0 0 = 0 ∧ ywRho [0, 0, 0, 0] 2 0 1 = 0 ∧
     ywRho [0, 0, 0, 0] 2 1 0 = 0 ∧ ywRho [0, 0, 0, 0] 2 1 1 = 0 ∧
     ywR [0, 0, 0, 0] 2 0 = 0 ∧ ywR [0, 0, 0, 0] 2 1 = 0) ∧
    (fitAR c6Env { phi := [0], sigma_squared := 0, aic := 0, bic := 0 }
        [0, 0, 0, 0] 2 .YWALKER).phi.length = 1 ∧
    (1 : ℕ) ≠ 2 := by
  refine ⟨⟨?_, ?_, ?_, ?_, ?_, ?_⟩, by decide, by decide⟩ <;>
    norm_num [ywRho, ywR, armaSum, List.range_succ]

/-!  Lemmas for order selection (claims C2, C10). -/

theorem minByIdxAux_map_lsaP (f : ℕ → ℚ) :
    ∀ (os : List ℕ) (i : ℕ),
      minByIdxAux i (os.map f) = (lsaP f os).map (fun p => (i + p.1, f p.2))
  | [], _ => rfl
  | k :: ks, i => by
      simp only [List.map_cons, minByIdxAux, lsaP, minByIdxAux_map_lsaP f ks (i + 1)]
      cases h : lsaP f ks with
      | none => simp
      | some p =>
          obtain ⟨j, m⟩ := p
          by_cases hlt : f m < f k
          · simp only [Option.map_some', hlt, if_true]
            have : i + 1 + j = i + (j + 1) := by omega
            rw [this]
          · simp [hlt]

theorem lsaP_range' (f : ℕ → ℚ) :
    ∀ (n s j m : ℕ), lsaP f (List.range' s n) = some (j, m) → m = s + j := by
  intro n
  induction n with
  | zero => intro s j m h; simp [lsaP] at h
  | succ n ih =>
      intro s j m h
      rw [List.range'_succ] at h
      simp only [lsaP] at h
      cases hrec : lsaP f (List.range' (s + 1) n) with
      | none =>
          rw [hrec] at h
          simp at h
          omega
      | some p =>
          obtain ⟨j', m'⟩ := p
          have hm' := ih (s + 1) j' m' hrec
          rw [hrec] at h
          by_cases hlt : f m' < f s
          · simp [hlt] at h
            omega
          · simp [hlt] at h
            omega

theorem lsaP_cons_isSome (f : ℕ → ℚ) (k : ℕ) (ks : List ℕ) :
    (lsaP f (k :: ks)).isSome := by
  simp only [lsaP]
  cases h : lsaP f ks with
  | none => simp
  | some p =>
      obtain ⟨j, m⟩ := p
      by_cases hlt : f m < f k <;> simp [hlt]

theorem ar_fit_seq_crit_values (env : ARenv) (data : List ℚ)
    (crit : ARState → ℚ) (g : ℕ → ℚ)
    (hcrit : ∀ (s : ARState) (k : ℕ), crit (fitAR env s data k .YWALKER) = g k) :
    ∀ (os : List ℕ) (st : ARState) (acc : List ℚ),
      (os.foldl (fun a k =>
          let st' := fitAR env a.1 data k .YWALKER
          (st', a.2 ++ [crit st'])) (st, acc)).2 = acc ++ os.map g := by
  intro os
  induction os with
  | nil => intro st acc; simp
  | cons k ks ih =>
      intro st acc
      simp only [List.foldl_cons, List.map_cons]
      rw [ih, hcrit st k]
      simp

/-- C2.  Under a per-order-determinate Yule-Walker solve (the oracle ignores
the previous coefficients), `autofit_bic` selects exactly the order an
independent linear scan of BIC over `1..=max_order` returns — the first
order attaining the minimum, ties going to the lowest order — and the final
re-fit leaves the model's coefficients equal to the Yule-Walker estimate at
that order. -/
theorem ar_autofit_bic_argmin (env : ARenv) (st : ARState) (data : List ℚ)
    (maxOrder : ℕ) (h1 : 1 ≤ maxOrder)
    (hyw : ∀ d k o1 o2, env.yw d k o1 = env.yw d k o2) :
    linearScanArgmin (bicOfOrder env data) (List.range' 1 maxOrder)
      = some (ar_bic_selected env st data maxOrder) ∧
    (ar_autofit_bic env st data maxOrder).phi
      = env.yw data (ar_bic_selected env st data maxOrder) [] := by
  have hvals : (ar_fit_seq env data st (List.range' 1 maxOrder) (fun s => s.bic)).2
      = (List.range' 1 maxOrder).map (bicOfOrder env data) := by
    unfold ar_fit_seq
    have := ar_fit_seq_crit_values env data (fun s => s.bic) (bicOfOrder env data)
      (fun s k => by
        simp only [fitAR, bicOfOrder]
        rw [hyw data k s.phi []])
      (List.range' 1 maxOrder) st []
    simpa using this
  obtain ⟨p, hp⟩ : ∃ p, lsaP (bicOfOrder env data) (List.range' 1 maxOrder) = some p := by
    obtain ⟨n, hn⟩ : ∃ n, maxOrder = n + 1 := ⟨maxOrder - 1, by omega⟩
    subst hn
    rw [List.range'_succ]
    exact Option.isSome_iff_exists.mp (lsaP_cons_isSome _ _ _)
  obtain ⟨j, m⟩ := p
  have hm : m = 1 + j := lsaP_range' _ _ _ _ _ hp
  have hmin : minByIdx (ar_fit_seq env data st (List.range' 1 maxOrder) (fun s => s.bic)).2
      = some j := by
    rw [hvals, minByIdx, minByIdxAux_map_lsaP, hp]
    simp
  have hsel : ar_bic_selected env st data maxOrder = m := by
    rw [ar_bic_selected, hmin]
    simp
    omega
  constructor
  · rw [linearScanArgmin, hp, hsel]
    simp
  · rw [ar_autofit_bic]
    show (fitAR env _ data _ .YWALKER).phi = _
    simp only [fitAR]
    exact hyw data _ _ []

/-- Witness for C2: concrete environment `wEnv` (whose Yule-Walker oracle
ignores the previous coefficients), series `[1, 2, 4, 8]`, `max_order = 2`. -/
theorem ar_autofit_bic_argmin_witness :
    1 ≤ 2 ∧
    linearScanArgmin (bicOfOrder wEnv wData) (List.range' 1 2)
      = some (ar_bic_selected wEnv wSt wData 2) :=
  ⟨by decide,
    (ar_autofit_bic_argmin wEnv wSt wData 2 (by decide) (fun _ _ _ _ => rfl)).1⟩

theorem fitAR_congr_yw (e1 e2 : ARenv) (hyw : e1.yw = e2.yw)
    (ha : e1.aicF = e2.aicF) (hb : e1.bicF = e2.bicF)
    (s : ARState) (data : List ℚ) (k : ℕ) :
    fitAR e1 s data k .YWALKER = fitAR e2 s data k .YWALKER := by
  simp only [fitAR, hyw, ha, hb]

theorem ar_fold_congr_yw (e1 e2 : ARenv) (hyw : e1.yw = e2.yw)
    (ha : e1.aicF = e2.aicF) (hb : e1.bicF = e2.bicF)
    (data : List ℚ) (crit : ARState → ℚ) :
    ∀ (os : List ℕ) (a : ARState × List ℚ),
      os.foldl (fun acc k =>
        let st' := fitAR e1 acc.1 data k .YWALKER
        (st', acc.2 ++ [crit st'])) a
      = os.foldl (fun acc k =>
        let st' := fitAR e2 acc.1 data k .YWALKER
        (st', acc.2 ++ [crit st'])) a := by
  intro os
  induction os with
  | nil => intro a; rfl
  | cons k ks ih =>
      intro a
      simp only [List.foldl_cons]
      rw [fitAR_congr_yw e1 e2 hyw ha hb a.1 data k]
      exact ih _

/-- C10.  `AutoRegressive::autofit` calls only the Yule-Walker estimator,
for both criteria: its result is unchanged under any replacement of the
OLS, Burg and CSS estimators, as long as the Yule-Walker oracle and the
AIC/BIC formulas are kept. -/
theorem ar_autofit_method_independent (e1 e2 : ARenv) (hyw : e1.yw = e2.yw)
    (ha : e1.aicF = e2.aicF) (hb : e1.bicF = e2.bicF)
    (st : ARState) (data : List ℚ) (maxOrder : ℕ) (crit : ARCriterion) :
    ar_autofit e1 st data maxOrder crit = ar_autofit e2 st data maxOrder crit := by
  cases crit with
  | AIC =>
      show ar_autofit_aic e1 st data maxOrder = ar_autofit_aic e2 st data maxOrder
      unfold ar_autofit_aic ar_aic_selected ar_fit_seq
      rw [ar_fold_congr_yw e1 e2 hyw ha hb data _ (List.range' 1 maxOrder) (st, [])]
      exact fitAR_congr_yw e1 e2 hyw ha hb _ data _
  | BIC =>
      show ar_autofit_bic e1 st data maxOrder = ar_autofit_bic e2 st data maxOrder
      unfold ar_autofit_bic ar_bic_selected ar_fit_seq
      rw [ar_fold_congr_yw e1 e2 hyw ha hb data _ (List.range' 1 maxOrder) (st, [])]
      exact fitAR_congr_yw e1 e2 hyw ha hb _ data _

/-- Witness for C10: `wEnv` and `wEnv2` differ in the OLS oracle only, and
`autofit` cannot tell them apart. -/
theorem ar_autofit_method_independent_witness :
    wEnv.yw = wEnv2.yw ∧
    ar_autofit wEnv wSt wData 2 .AIC = ar_autofit wEnv2 wSt wData 2 .AIC :=
  ⟨rfl, ar_autofit_method_independent wEnv wEnv2 rfl rfl rfl wSt wData 2 .AIC⟩

/-!  Lemmas for ARIMA autofit (claim C9). -/

theorem arima_fit_d0_diffOrder (env : ARIMAenv) (s : ARIMAState) (data : List ℚ)
    (p q : ℕ) (m : ARIMAMethod) :
    (arima_fit env s data p 0 q m).diffOrder = s.diffOrder := rfl

theorem arima_fold_diffOrder (env : ARIMAenv) (data : List ℚ) (crit : ARIMAState → ℚ) :
    ∀ (pairs : List (ℕ × ℕ)) (a : ARIMAState × List ℚ),
      ((pairs.foldl (fun acc pq =>
          let st' := arima_fit env acc.1 data pq.1 0 pq.2 .CSS
          (st', acc.2 ++ [crit st'])) a).1).diffOrder = a.1.diffOrder := by
  intro pairs
  induction pairs with
  | nil => intro a; rfl
  | cons pq ps ih =>
      intro a
      simp only [List.foldl_cons]
      rw [ih]
      exact arima_fit_d0_diffOrder env a.1 data pq.1 pq.2 .CSS

theorem arima_inner_fold_diffOrder (env : ARIMAenv) (data : List ℚ) (p : ℕ) :
    ∀ (qs : List ℕ) (b : ARIMAState × List ℚ),
      ((qs.foldl (fun b q =>
          let st' := arima_fit env b.1 data p 0 q .CSS
          (st', b.2 ++ [st'.bic])) b).1).diffOrder = b.1.diffOrder := by
  intro qs
  induction qs with
  | nil => intro b; rfl
  | cons q qs ih =>
      intro b
      simp only [List.foldl_cons]
      rw [ih]
      exact arima_fit_d0_diffOrder env b.1 data p q .CSS

theorem arima_outer_fold_diffOrder (env : ARIMAenv) (data : List ℚ) (maxma : ℕ) :
    ∀ (ps : List ℕ) (a : ARIMAState × List ℚ),
      ((ps.foldl (fun acc p =>
          let inner := (List.range' 1 maxma).foldl
            (fun b q =>
              let st' := arima_fit env b.1 data p 0 q .CSS
              (st', b.2 ++ [st'.bic])) acc
          (arima_fit env inner.1 data 1 0 1 .CSS, inner.2)) a).1).diffOrder
        = a.1.diffOrder := by
  intro ps
  induction ps with
  | nil => intro a; rfl
  | cons p ps ih =>
      intro a
      simp only [List.foldl_cons]
      rw [ih, arima_fit_d0_diffOrder, arima_inner_fold_diffOrder]

/-- C9.  `ARIMA::autofit` never applies the differencing transform: the
differenced series it computes from `d` is discarded (the result does not
depend on `d` at all), every candidate fit and the final re-fit run on the
original series with differencing argument 0, and the model's `diff` field
keeps its prior value whatever `d` was passed. -/
theorem arima_autofit_ignores_differencing (env : ARIMAenv) (st : ARIMAState)
    (data : List ℚ) (d d2 maxar maxma : ℕ) (crit : ARIMACriterion) :
    arima_autofit env st data d maxar maxma crit
      = arima_autofit env st data d2 maxar maxma crit ∧
    (arima_autofit env st data d maxar maxma crit).diffOrder = st.diffOrder := by
  constructor
  · cases crit <;> rfl
  · cases crit with
    | AIC =>
        show (arima_autofit_aic env st data maxar maxma).diffOrder = st.diffOrder
        unfold arima_autofit_aic arima_fit_seq
        rw [arima_fit_d0_diffOrder]
        exact arima_fold_diffOrder env data _ _ _
    | BIC =>
        show (arima_autofit_bic env st data maxar maxma).diffOrder = st.diffOrder
        unfold arima_autofit_bic
        exact arima_outer_fold_diffOrder env data maxma _ _

/-- C1.  `ARMA::autofit` with AIC on `max_ar_order = max_ma_order = 1`: in
the environment `c1Env` the recorded grid AICs are `[1, 0, 0, 1]`, so the
minimizing flat index is 1, whose row-major grid pair is `(ar, ma) = (0, 1)`;
but the source decode `(min_order / max_ar_order, min_order % max_ma_order)`
yields `(1, 0)`, and the final re-fit indeed runs at AR order 1 (the
resulting `phi` has length 1, not the minimizer's 0).  The flat index is not
decoded consistently with the row-major enumeration, refuting the claim on
`ARMA::autofit_aic`. -/
theorem arma_autofit_aic_wrong_pair :
    minByIdx (arma_fit_seq c1Env c1Data c1St (arma_grid 1 1) (·.aic)).2 = some 1 ∧
    (arma_grid 1 1).getD 1 (0, 0) = (0, 1) ∧
    arma_selected_pair (arma_fit_seq c1Env c1Data c1St (arma_grid 1 1) (·.aic)).2 1 1
      = (1, 0) ∧
    ((1, 0) : ℕ × ℕ) ≠ (0, 1) ∧
    (arma_autofit_aic c1Env c1St c1Data 1 1).phi.length = 1 :=
  ⟨by decide, by decide, by decide, by decide, by decide⟩
